import Mathlib

/-!
Verification of the mesh-3d-utils editor's selection, transform-propagation,
event-bubbling and geometry-edit subsystems, via a shallow embedding of the
relevant TypeScript sources.

Scene objects are identified by natural numbers.  A scene is an association
list of (child, parent) pairs: `parentOf` mirrors the `object.parent` link of
the underlying scene graph.  Acyclicity of the parent links is expressed by
requiring every parent id to be smaller than its child id (`Scene.Decreasing`);
every finite acyclic scene graph admits such a numbering.  The recursive
ancestor walks of the source are embedded as fuel-indexed functions; under
`Scene.Decreasing` any fuel larger than the object id lets the walk run to
completion, mirroring the terminating runs of the source.
-/

abbrev Scene := List (Nat × Nat)

/-- `object.parent` of the scene graph: first association for the object. -/
def parentOf (s : Scene) (o : Nat) : Option Nat :=
  (s.find? (fun p => p.1 == o)).map (·.2)

/-- Acyclicity witness: every parent link strictly decreases the id. -/
def Scene.Decreasing (s : Scene) : Prop := ∀ p ∈ s, p.2 < p.1

instance : DecidablePred Scene.Decreasing := fun s =>
  inferInstanceAs (Decidable (∀ p ∈ s, p.2 < p.1))

theorem parentOf_lt {s : Scene} (hs : s.Decreasing) {o p : Nat}
    (h : parentOf s o = some p) : p < o := by
  unfold parentOf at h
  rcases hfind : s.find? (fun q => q.1 == o) with _ | q
  · rw [hfind] at h
    exact Option.noConfusion h
  · rw [hfind] at h
    simp only [Option.map_some', Option.some.injEq] at h
    have hmem := List.mem_of_find?_eq_some hfind
    have heq := List.find?_some hfind
    simp only [beq_iff_eq] at heq
    have := hs q hmem
    omega

/-- Embeds `isDescendantOfOrEqual` of `utils/parented`: returns false if the
object is in the separator list, true if it equals the root, otherwise recurses
on the parent link (false at the root of the scene graph).  `fuel` bounds the
depth of the source's unbounded recursion. -/
def isDescendantOfOrEqual (s : Scene) (fuel : Nat) (object root : Nat)
    (separators : List Nat) : Bool :=
  match fuel with
  | 0 => false
  | fuel + 1 =>
    if object ∈ separators then false
    else if object = root then true
    else
      match parentOf s object with
      | some p => isDescendantOfOrEqual s fuel p root separators
      | none => false

/-- Embeds `isDescendantOf` of `utils/parented`: strict descendant test, the
or-equal test applied to the parent. -/
def isDescendantOf (s : Scene) (fuel : Nat) (object root : Nat)
    (separators : List Nat) : Bool :=
  match parentOf s object with
  | some p => isDescendantOfOrEqual s fuel p root separators
  | none => false

theorem isDescendantOfOrEqual_succ (s : Scene) (fuel : Nat) (o root : Nat)
    (seps : List Nat) :
    isDescendantOfOrEqual s (fuel + 1) o root seps =
      if o ∈ seps then false
      else if o = root then true
      else
        match parentOf s o with
        | some p => isDescendantOfOrEqual s fuel p root seps
        | none => false := rfl

/-- Canonical-fuel descendant-or-equal test with no separators; with decreasing
parent links fuel `object + 1` always suffices. -/
def descEq (s : Scene) (object root : Nat) : Bool :=
  isDescendantOfOrEqual s (object + 1) object root []

/-- Canonical-fuel strict descendant test with no separators. -/
def strictDesc (s : Scene) (object root : Nat) : Bool :=
  isDescendantOf s (object + 1) object root []

theorem isDescendantOfOrEqual_fuel {s : Scene} (hs : s.Decreasing) :
    ∀ {o : Nat} {fuel fuel' : Nat}, o < fuel → o < fuel' →
      ∀ {root : Nat}, isDescendantOfOrEqual s fuel o root [] =
        isDescendantOfOrEqual s fuel' o root [] := by
  intro o
  induction o using Nat.strong_induction_on with
  | _ o ih =>
    intro fuel fuel' hf hf' root
    obtain ⟨f, rfl⟩ : ∃ f, fuel = f + 1 := ⟨fuel - 1, by omega⟩
    obtain ⟨f', rfl⟩ : ∃ f', fuel' = f' + 1 := ⟨fuel' - 1, by omega⟩
    rw [isDescendantOfOrEqual_succ, isDescendantOfOrEqual_succ]
    simp only [List.mem_nil_iff, if_false]
    rcases hp : parentOf s o with _ | p
    · rfl
    · have hlt := parentOf_lt hs hp
      by_cases ho : o = root
      · simp [ho]
      · simp only [ho, if_false]
        exact ih p hlt (by omega) (by omega)

theorem isDescendantOfOrEqual_eq_descEq {s : Scene} (hs : s.Decreasing)
    {o fuel : Nat} (hf : o < fuel) (root : Nat) :
    isDescendantOfOrEqual s fuel o root [] = descEq s o root :=
  isDescendantOfOrEqual_fuel hs hf (Nat.lt_succ_self o)

theorem isDescendantOf_eq_strictDesc {s : Scene} (hs : s.Decreasing)
    {o fuel : Nat} (hf : o < fuel) (root : Nat) :
    isDescendantOf s fuel o root [] = strictDesc s o root := by
  simp only [strictDesc, isDescendantOf]
  rcases hp : parentOf s o with _ | p
  · rfl
  · have hlt := parentOf_lt hs hp
    exact isDescendantOfOrEqual_fuel hs (by omega) (by omega)

theorem descEq_unfold {s : Scene} (hs : s.Decreasing) (o root : Nat) :
    descEq s o root =
      (decide (o = root) ||
        match parentOf s o with
        | some p => descEq s p root
        | none => false) := by
  unfold descEq
  rw [isDescendantOfOrEqual_succ]
  simp only [List.mem_nil_iff, if_false]
  rcases hp : parentOf s o with _ | p
  · by_cases ho : o = root <;> simp [ho]
  · have hlt := parentOf_lt hs hp
    by_cases ho : o = root
    · simp [ho]
    · simp only [ho, if_false, decide_eq_false ho, Bool.false_or]
      exact isDescendantOfOrEqual_eq_descEq hs hlt root

theorem strictDesc_unfold {s : Scene} (hs : s.Decreasing) (o root : Nat) :
    strictDesc s o root =
      (match parentOf s o with
        | some p => descEq s p root
        | none => false) := by
  simp only [strictDesc, isDescendantOf]
  rcases hp : parentOf s o with _ | p
  · rfl
  · have hlt := parentOf_lt hs hp
    exact isDescendantOfOrEqual_eq_descEq hs (by omega) root

theorem descEq_refl (s : Scene) (o : Nat) : descEq s o o = true := by
  unfold descEq
  rw [isDescendantOfOrEqual_succ]
  simp

theorem descEq_le {s : Scene} (hs : s.Decreasing) :
    ∀ {o root : Nat}, descEq s o root = true → root ≤ o := by
  intro o
  induction o using Nat.strong_induction_on with
  | _ o ih =>
    intro root h
    rw [descEq_unfold hs] at h
    rcases Bool.or_eq_true_iff.mp h with h | h
    · have : o = root := of_decide_eq_true h
      omega
    · rcases hp : parentOf s o with _ | p
      · rw [hp] at h
        exact absurd h (by simp)
      · rw [hp] at h
        have h' : descEq s p root = true := h
        have := ih p (parentOf_lt hs hp) h'
        have := parentOf_lt hs hp
        omega

theorem descEq_antisymm {s : Scene} (hs : s.Decreasing) {a b : Nat}
    (hab : descEq s a b = true) (hba : descEq s b a = true) : a = b := by
  have h1 := descEq_le hs hab
  have h2 := descEq_le hs hba
  omega

theorem descEq_trans {s : Scene} (hs : s.Decreasing) :
    ∀ {a b c : Nat}, descEq s a b = true → descEq s b c = true →
      descEq s a c = true := by
  intro a
  induction a using Nat.strong_induction_on with
  | _ a ih =>
    intro b c hab hbc
    rw [descEq_unfold hs] at hab
    rcases Bool.or_eq_true_iff.mp hab with h | h
    · exact (show a = b from of_decide_eq_true h) ▸ hbc
    · rcases hp : parentOf s a with _ | p
      · rw [hp] at h
        exact absurd h (by simp)
      · rw [hp] at h
        have h' : descEq s p b = true := h
        rw [descEq_unfold hs, hp]
        refine Bool.or_eq_true_iff.mpr (Or.inr ?_)
        exact ih p (parentOf_lt hs hp) h' hbc

theorem strictDesc_iff {s : Scene} (hs : s.Decreasing) {a b : Nat} :
    strictDesc s a b = true ↔ descEq s a b = true ∧ a ≠ b := by
  rw [strictDesc_unfold hs]
  constructor
  · intro h
    rcases hp : parentOf s a with _ | p
    · rw [hp] at h
      exact absurd h (by simp)
    · rw [hp] at h
      have hpd : descEq s p b = true := h
      have hplt := parentOf_lt hs hp
      constructor
      · rw [descEq_unfold hs, hp]
        exact Bool.or_eq_true_iff.mpr (Or.inr hpd)
      · have := descEq_le hs hpd
        omega
  · rintro ⟨hd, hne⟩
    rw [descEq_unfold hs] at hd
    rcases Bool.or_eq_true_iff.mp hd with h | h
    · exact absurd (of_decide_eq_true h) hne
    · rcases hp : parentOf s a with _ | p
      · rw [hp] at h
        exact absurd h (by simp)
      · rw [hp] at h
        exact h

theorem strictDesc_irrefl {s : Scene} (hs : s.Decreasing) (a : Nat) :
    strictDesc s a a = false := by
  by_contra h
  have := (strictDesc_iff hs).mp (by simpa using h)
  exact this.2 rfl

theorem strictDesc_lt {s : Scene} (hs : s.Decreasing) {a b : Nat}
    (h : strictDesc s a b = true) : b < a := by
  rcases (strictDesc_iff hs).mp h with ⟨hd, hne⟩
  have := descEq_le hs hd
  omega

theorem strictDesc_trans {s : Scene} (hs : s.Decreasing) {a b c : Nat}
    (hab : strictDesc s a b = true) (hbc : strictDesc s b c = true) :
    strictDesc s a c = true := by
  rcases (strictDesc_iff hs).mp hab with ⟨hd1, _⟩
  rcases (strictDesc_iff hs).mp hbc with ⟨hd2, _⟩
  refine (strictDesc_iff hs).mpr ⟨descEq_trans hs hd1 hd2, ?_⟩
  have := strictDesc_lt hs hab
  have := strictDesc_lt hs hbc
  omega

theorem strictDesc_of_descEq_strictDesc {s : Scene} (hs : s.Decreasing)
    {a b c : Nat} (hab : descEq s a b = true) (hbc : strictDesc s b c = true) :
    strictDesc s a c = true := by
  rcases (strictDesc_iff hs).mp hbc with ⟨hd2, _⟩
  refine (strictDesc_iff hs).mpr ⟨descEq_trans hs hab hd2, ?_⟩
  have h1 := descEq_le hs hab
  have h2 := strictDesc_lt hs hbc
  omega

theorem descEq_of_strictDesc {s : Scene} (hs : s.Decreasing) {a b : Nat}
    (h : strictDesc s a b = true) : descEq s a b = true :=
  ((strictDesc_iff hs).mp h).1

/-- The ancestors of a common descendant are totally ordered. -/
theorem descEq_total_of_common {s : Scene} (hs : s.Decreasing) :
    ∀ {a x y : Nat}, descEq s a x = true → descEq s a y = true →
      descEq s x y = true ∨ descEq s y x = true := by
  intro a
  induction a using Nat.strong_induction_on with
  | _ a ih =>
    intro x y hax hay
    have hax0 := hax
    have hay0 := hay
    by_cases hx : a = x
    · exact Or.inl (hx ▸ hay)
    · by_cases hy : a = y
      · exact Or.inr (hy ▸ hax0)
      · rw [descEq_unfold hs] at hax
        rcases Bool.or_eq_true_iff.mp hax with h | h
        · exact absurd (of_decide_eq_true h) hx
        · rcases hp : parentOf s a with _ | p
          · rw [hp] at h
            exact absurd h (by simp)
          · rw [hp] at h
            have h1 : descEq s p x = true := h
            rw [descEq_unfold hs, hp] at hay
            rcases Bool.or_eq_true_iff.mp hay with h' | h'
            · exact absurd (of_decide_eq_true h') hy
            · exact ih p (parentOf_lt hs hp) h1 h'

/-! ### C10: separator membership overrides the equality test -/

/-- C10: `isDescendantOfOrEqual` tests separator membership before the equality
test, so an object contained in the separator list is reported outside every
scope, even the scope rooted at itself. -/
theorem separator_member_never_descendant (s : Scene) (fuel : Nat)
    (x root : Nat) (seps : List Nat) (hx : x ∈ seps) :
    isDescendantOfOrEqual s fuel x root seps = false := by
  cases fuel with
  | zero => rfl
  | succ fuel => simp [isDescendantOfOrEqual, hx]

/-- Witness for C10 at a concrete input: with separator list `[x]` the query
`isDescendantOfOrEqual x x [x]` is false although `x = x`. -/
theorem separator_member_never_descendant_witness :
    (5 : Nat) ∈ [(5 : Nat)] ∧
      isDescendantOfOrEqual [(5, 2)] 7 5 5 [5] = false :=
  ⟨by decide, separator_member_never_descendant [(5, 2)] 7 5 5 [5] (by decide)⟩

/-! ### C2: islands computed over the selection (`computeIslands`) -/

/-- One iteration of the `computeIslands` loop: a candidate already a
descendant of an accepted island is discarded, otherwise it is appended. -/
def computeIslandsStep (s : Scene) (fuel : Nat) (separators : List Nat)
    (islands : List Nat) (object : Nat) : List Nat :=
  if islands.any (fun island => isDescendantOf s fuel object island separators)
  then islands
  else islands ++ [object]

/-- Embeds `computeIslands` of the transform tool: fold the step over the
selection in iteration order, starting from an empty island list. -/
def computeIslands (s : Scene) (fuel : Nat) (objects : List Nat)
    (separators : List Nat) : List Nat :=
  objects.foldl (computeIslandsStep s fuel separators) []

theorem computeIslandsStep_skip {s : Scene} {fuel : Nat} {separators islands : List Nat}
    {object : Nat}
    (h : islands.any (fun island => isDescendantOf s fuel object island separators) = true) :
    computeIslandsStep s fuel separators islands object = islands := by
  unfold computeIslandsStep
  rw [if_pos h]

theorem computeIslandsStep_push {s : Scene} {fuel : Nat} {separators islands : List Nat}
    {object : Nat}
    (h : islands.any (fun island => isDescendantOf s fuel object island separators) = false) :
    computeIslandsStep s fuel separators islands object = islands ++ [object] := by
  unfold computeIslandsStep
  rw [if_neg (by simp [h])]

/-- Generalized induction for the `computeIslands` fold: starting from an
island accumulator that is an antichain, contains no strict descendants of the
pending objects, and pairwise-respects the iteration-order condition, the fold
preserves the antichain, never drops accumulated islands, and covers every
processed object by some island. -/
theorem computeIslands_go {s : Scene} (hs : s.Decreasing) (fuel : Nat) :
    ∀ (objects acc : List Nat),
      (∀ o ∈ objects, o < fuel) →
      objects.Pairwise (fun a b => strictDesc s a b = false) →
      (∀ a ∈ acc, ∀ b ∈ acc, a ≠ b → strictDesc s a b = false) →
      (∀ o ∈ objects, ∀ a ∈ acc, strictDesc s a o = false) →
      (∀ a ∈ acc, a ∈ objects.foldl (computeIslandsStep s fuel []) acc) ∧
      (∀ a ∈ objects.foldl (computeIslandsStep s fuel []) acc,
        ∀ b ∈ objects.foldl (computeIslandsStep s fuel []) acc,
          a ≠ b → strictDesc s a b = false) ∧
      (∀ o ∈ objects, ∃ i ∈ objects.foldl (computeIslandsStep s fuel []) acc,
        descEq s o i = true) := by
  intro objects
  induction objects with
  | nil =>
    intro acc _ _ hanti _
    refine ⟨fun a ha => ha, ?_, ?_⟩
    · simpa using hanti
    · intro o ho
      exact absurd ho (List.not_mem_nil o)
  | cons o rest ih =>
    intro acc hfuel hpair hanti hao
    have hofuel : o < fuel := hfuel o (by simp)
    have hpair_head : ∀ r ∈ rest, strictDesc s o r = false :=
      (List.pairwise_cons.mp hpair).1
    have hpair_rest := (List.pairwise_cons.mp hpair).2
    have hfuel_rest : ∀ r ∈ rest, r < fuel := fun r hr => hfuel r (by simp [hr])
    rw [List.foldl_cons]
    cases hany : acc.any (fun island => isDescendantOf s fuel o island []) with
    | true =>
      rw [computeIslandsStep_skip hany]
      obtain ⟨i, hi, hdi⟩ := List.any_eq_true.mp hany
      have hdi' : strictDesc s o i = true := by
        rw [← isDescendantOf_eq_strictDesc hs hofuel]
        exact hdi
      have hih := ih acc hfuel_rest hpair_rest hanti
        (fun r hr a ha => hao r (by simp [hr]) a ha)
      refine ⟨hih.1, hih.2.1, ?_⟩
      intro o' ho'
      rcases List.mem_cons.mp ho' with rfl | ho'
      · exact ⟨i, hih.1 i hi, descEq_of_strictDesc hs hdi'⟩
      · exact hih.2.2 o' ho'
    | false =>
      rw [computeIslandsStep_push hany]
      have hnotdesc : ∀ a ∈ acc, strictDesc s o a = false := by
        intro a ha
        have := List.any_eq_false.mp hany a ha
        rw [← isDescendantOf_eq_strictDesc hs hofuel]
        simpa using this
      have hanti' : ∀ a ∈ acc ++ [o], ∀ b ∈ acc ++ [o], a ≠ b →
          strictDesc s a b = false := by
        intro a ha b hb hne
        rcases List.mem_append.mp ha with ha | ha
        · rcases List.mem_append.mp hb with hb | hb
          · exact hanti a ha b hb hne
          · have hb' : b = o := by simpa using hb
            rw [hb']
            exact hao o (by simp) a ha
        · have ha' : a = o := by simpa using ha
          rcases List.mem_append.mp hb with hb | hb
          · rw [ha']
            exact hnotdesc b hb
          · have hb' : b = o := by simpa using hb
            exact absurd (ha'.trans hb'.symm) hne
      have hao' : ∀ r ∈ rest, ∀ a ∈ acc ++ [o], strictDesc s a r = false := by
        intro r hr a ha
        rcases List.mem_append.mp ha with ha | ha
        · exact hao r (by simp [hr]) a ha
        · have ha' : a = o := by simpa using ha
          rw [ha']
          exact hpair_head r hr
      have hih := ih (acc ++ [o]) hfuel_rest hpair_rest hanti' hao'
      refine ⟨?_, hih.2.1, ?_⟩
      · intro a ha
        exact hih.1 a (by simp [ha])
      · intro o' ho'
        rcases List.mem_cons.mp ho' with rfl | ho'
        · exact ⟨o', hih.1 o' (by simp), descEq_refl s o'⟩
        · exact hih.2.2 o' ho'

/-- C2 (amended): provided no selected object is a strict ancestor of an object
appearing earlier in the iteration order, the island list computed by
`computeIslands` contains no member that is a strict descendant of another
member, and every selected object is a descendant-or-self of exactly one
island member. -/
theorem computeIslands_antichain_cover {s : Scene} (hs : s.Decreasing)
    {fuel : Nat} {objects : List Nat}
    (hfuel : ∀ o ∈ objects, o < fuel)
    (horder : objects.Pairwise (fun a b => strictDesc s a b = false)) :
    (∀ a ∈ computeIslands s fuel objects [], ∀ b ∈ computeIslands s fuel objects [],
        a ≠ b → strictDesc s a b = false) ∧
    (∀ o ∈ objects, ∃! i, i ∈ computeIslands s fuel objects [] ∧
        descEq s o i = true) := by
  have hgo := computeIslands_go hs fuel objects [] hfuel horder
    (by intro a ha; exact absurd ha (List.not_mem_nil a))
    (by intro o _ a ha; exact absurd ha (List.not_mem_nil a))
  unfold computeIslands
  refine ⟨hgo.2.1, ?_⟩
  intro o ho
  obtain ⟨i, hi, hdi⟩ := hgo.2.2 o ho
  refine ⟨i, ⟨hi, hdi⟩, ?_⟩
  rintro j ⟨hj, hdj⟩
  by_contra hne
  rcases descEq_total_of_common hs hdj hdi with h | h
  · exact absurd (hgo.2.1 j hj i hi hne)
      (by simp [(strictDesc_iff hs).mpr ⟨h, hne⟩])
  · exact absurd (hgo.2.1 i hi j hj (Ne.symm hne))
      (by simp [(strictDesc_iff hs).mpr ⟨h, Ne.symm hne⟩])

/-- Counterexample to C2 as stated: with parent link `1 → 0` and selection
iterated in the order `[1, 0]`, `computeIslands` accepts the child first and
then also accepts its ancestor, so the island list `[1, 0]` contains a member
(`1`) that is a strict descendant of another member (`0`), and `1` is a
descendant-or-self of two distinct island members. -/
theorem computeIslands_antichain_counterexample :
    computeIslands [(1, 0)] 2 [1, 0] [] = [1, 0] ∧
      strictDesc [(1, 0)] 1 0 = true ∧
      descEq [(1, 0)] 1 1 = true ∧ descEq [(1, 0)] 1 0 = true ∧ (1 : Nat) ≠ 0 := by
  decide

/-- Witness for the amended C2 at a concrete input: ancestor-first order
`[0, 1, 2]` with parent links `1 → 0`, `2 → 0`. -/
theorem computeIslands_antichain_cover_witness :
    ((∀ o ∈ [0, 1, 2], o < 3) ∧
      ([0, 1, 2] : List Nat).Pairwise (fun a b => strictDesc [(1, 0), (2, 0)] a b = false)) ∧
    ((∀ a ∈ computeIslands [(1, 0), (2, 0)] 3 [0, 1, 2] [],
        ∀ b ∈ computeIslands [(1, 0), (2, 0)] 3 [0, 1, 2] [],
          a ≠ b → strictDesc [(1, 0), (2, 0)] a b = false) ∧
      (∀ o ∈ [0, 1, 2], ∃! i, i ∈ computeIslands [(1, 0), (2, 0)] 3 [0, 1, 2] [] ∧
          descEq [(1, 0), (2, 0)] o i = true)) :=
  ⟨⟨by decide, by decide⟩,
    computeIslands_antichain_cover (by decide) (by decide) (by decide)⟩

/-! ### C7: background click clears exactly the root-island selections -/

/-- The island-separation loop of the `SelectControls` pointer-missed handler:
iterate over the copied container list, removing each container that is a
strict descendant of a container still present in the list. -/
def pruneRootIslands (s : Scene) (fuel : Nat) : List Nat → List Nat → List Nat
  | kept, [] => kept
  | kept, c :: rest =>
    if (kept ++ c :: rest).any (fun other => isDescendantOf s fuel c other [])
    then pruneRootIslands s fuel kept rest
    else pruneRootIslands s fuel (kept ++ [c]) rest

/-- The `onPointerMissed` handler of `SelectControls`: when the controls are
not disabled, separate the registered selectable containers into root islands
and clear each root island's own selection list. -/
def clearRootIslandSelections (s : Scene) (fuel : Nat) (disabled : Bool)
    (selectables : List Nat) (selections : Nat → List Nat) : Nat → List Nat :=
  if disabled then selections
  else fun c =>
    if c ∈ pruneRootIslands s fuel [] selectables then [] else selections c

theorem clearRootIslandSelections_enabled (s : Scene) (fuel : Nat)
    (selectables : List Nat) (selections : Nat → List Nat) (c : Nat) :
    clearRootIslandSelections s fuel false selectables selections c =
      if c ∈ pruneRootIslands s fuel [] selectables then [] else selections c := rfl

/-- Every strict descendant of a list member has a "root" ancestor in the
list: one of which it is a strict descendant and which is itself a strict
descendant of no list member. -/
theorem exists_root_ancestor {s : Scene} (hs : s.Decreasing) {L : List Nat} :
    ∀ {o : Nat}, o ∈ L → ∀ {c : Nat}, strictDesc s c o = true →
      ∃ r ∈ L, strictDesc s c r = true ∧ ∀ u ∈ L, strictDesc s r u = false := by
  intro o
  induction o using Nat.strong_induction_on with
  | _ o ih =>
    intro ho c hco
    by_cases h : ∃ u ∈ L, strictDesc s o u = true
    · obtain ⟨u, hu, hou⟩ := h
      exact ih u (strictDesc_lt hs hou) hu (strictDesc_trans hs hco hou)
    · push_neg at h
      refine ⟨o, ho, hco, fun u hu => ?_⟩
      have := h u hu
      simpa using this

theorem pruneRootIslands_go {s : Scene} (hs : s.Decreasing) {fuel : Nat}
    {L : List Nat} (hfuel : ∀ o ∈ L, o < fuel) :
    ∀ (remaining kept : List Nat),
      (∀ x ∈ kept ++ remaining, x ∈ L) →
      (∀ k ∈ kept, k ∈ L ∧ ∀ o ∈ L, strictDesc s k o = false) →
      (∀ x ∈ L, (∀ u ∈ L, strictDesc s x u = false) → x ∈ kept ++ remaining) →
      ∀ c, (c ∈ pruneRootIslands s fuel kept remaining ↔
        c ∈ L ∧ ∀ o ∈ L, strictDesc s c o = false) := by
  intro remaining
  induction remaining with
  | nil =>
    intro kept hsub hkept hroots c
    unfold pruneRootIslands
    constructor
    · exact fun hc => hkept c hc
    · intro ⟨hcL, hcroot⟩
      simpa using hroots c hcL hcroot
  | cons x rest ih =>
    intro kept hsub hkept hroots c
    have hxL : x ∈ L := hsub x (by simp)
    have hxfuel : x < fuel := hfuel x hxL
    unfold pruneRootIslands
    cases hany : (kept ++ x :: rest).any (fun other => isDescendantOf s fuel x other []) with
    | true =>
      rw [if_pos rfl]
      obtain ⟨other, hother, hdesc⟩ := List.any_eq_true.mp hany
      have hother' : strictDesc s x other = true := by
        rw [← isDescendantOf_eq_strictDesc hs hxfuel]
        exact hdesc
      refine ih kept (fun y hy => hsub y (by
          rcases List.mem_append.mp hy with hy | hy
          · exact List.mem_append.mpr (Or.inl hy)
          · exact List.mem_append.mpr (Or.inr (List.mem_cons_of_mem x hy))))
        hkept (fun y hyL hyroot => ?_) c
      have hy := hroots y hyL hyroot
      rcases List.mem_append.mp hy with hy | hy
      · exact List.mem_append.mpr (Or.inl hy)
      · rcases List.mem_cons.mp hy with rfl | hy
        · exact absurd (hyroot other (hsub other hother)) (by simp [hother'])
        · exact List.mem_append.mpr (Or.inr hy)
    | false =>
      rw [if_neg Bool.false_ne_true]
      have hxroot : ∀ o ∈ L, strictDesc s x o = false := by
        intro o hoL
        by_contra hxo
        have hxo' : strictDesc s x o = true := by
          cases hxo'' : strictDesc s x o with
          | true => rfl
          | false => exact absurd hxo'' hxo
        obtain ⟨r, hrL, hxr, hrroot⟩ := exists_root_ancestor hs hoL hxo'
        have hrmem : r ∈ kept ++ x :: rest := hroots r hrL hrroot
        have hdr : isDescendantOf s fuel x r [] = true := by
          rw [isDescendantOf_eq_strictDesc hs hxfuel]
          exact hxr
        have hcontra : ((kept ++ x :: rest).any
            fun other => isDescendantOf s fuel x other []) = true :=
          List.any_eq_true.mpr ⟨r, hrmem, hdr⟩
        rw [hany] at hcontra
        exact Bool.false_ne_true hcontra
      refine ih (kept ++ [x]) (fun y hy => ?_) (fun k hk => ?_) (fun y hyL hyroot => ?_) c
      · rcases List.mem_append.mp hy with hy | hy
        · rcases List.mem_append.mp hy with hy | hy
          · exact hsub y (List.mem_append.mpr (Or.inl hy))
          · have : y = x := by simpa using hy
            exact this ▸ hxL
        · exact hsub y (List.mem_append.mpr (Or.inr (List.mem_cons_of_mem x hy)))
      · rcases List.mem_append.mp hk with hk | hk
        · exact hkept k hk
        · have : k = x := by simpa using hk
          exact this ▸ ⟨hxL, hxroot⟩
      · have hy := hroots y hyL hyroot
        rcases List.mem_append.mp hy with hy | hy
        · exact List.mem_append.mpr (Or.inl (List.mem_append.mpr (Or.inl hy)))
        · rcases List.mem_cons.mp hy with rfl | hy
          · exact List.mem_append.mpr (Or.inl (List.mem_append.mpr (Or.inr (by simp))))
          · exact List.mem_append.mpr (Or.inr hy)

theorem pruneRootIslands_mem {s : Scene} (hs : s.Decreasing) {fuel : Nat}
    {selectables : List Nat} (hfuel : ∀ o ∈ selectables, o < fuel) (c : Nat) :
    c ∈ pruneRootIslands s fuel [] selectables ↔
      c ∈ selectables ∧ ∀ o ∈ selectables, strictDesc s c o = false := by
  exact pruneRootIslands_go hs hfuel selectables []
    (fun x hx => by simpa using hx)
    (fun k hk => absurd hk (List.not_mem_nil k))
    (fun x hxL _ => by simpa using hxL)
    c

/-- C7: with the select controls enabled, a pointer-missed event at the scene
root clears the selection list of exactly those registered containers that are
not strict descendants of another registered container; nested sub-scope
containers and unregistered containers keep their selection lists. -/
theorem pointerMissed_clears_exactly_root_islands {s : Scene}
    (hs : s.Decreasing) {fuel : Nat} {selectables : List Nat}
    (hfuel : ∀ c ∈ selectables, c < fuel) (selections : Nat → List Nat) :
    (∀ c ∈ selectables,
      ((∀ o ∈ selectables, strictDesc s c o = false) →
        clearRootIslandSelections s fuel false selectables selections c = []) ∧
      ((∃ o ∈ selectables, strictDesc s c o = true) →
        clearRootIslandSelections s fuel false selectables selections c =
          selections c)) ∧
    (∀ c, c ∉ selectables →
      clearRootIslandSelections s fuel false selectables selections c =
        selections c) := by
  constructor
  · intro c hc
    constructor
    · intro hroot
      rw [clearRootIslandSelections_enabled]
      rw [if_pos ((pruneRootIslands_mem hs hfuel c).mpr ⟨hc, hroot⟩)]
    · intro ⟨o, ho, hco⟩
      rw [clearRootIslandSelections_enabled]
      refine if_neg (fun hmem => ?_)
      have hcontra := ((pruneRootIslands_mem hs hfuel c).mp hmem).2 o ho
      rw [hco] at hcontra
      exact Bool.noConfusion hcontra
  · intro c hc
    rw [clearRootIslandSelections_enabled]
    exact if_neg (fun hmem => hc ((pruneRootIslands_mem hs hfuel c).mp hmem).1)

/-- Witness for C7 at a concrete input: containers `1` and `4` are top-level
root islands (their selections are cleared), container `2` is nested inside
`1` (its selection is kept by this handler), and container `9` is not
registered (kept). -/
theorem pointerMissed_clears_exactly_root_islands_witness :
    ((∀ c ∈ [1, 2, 4], c < 5) ∧ Scene.Decreasing [(2, 1)]) ∧
    (clearRootIslandSelections [(2, 1)] 5 false [1, 2, 4]
        (fun c => if c = 9 then [13] else [c + 10]) 1 = [] ∧
      clearRootIslandSelections [(2, 1)] 5 false [1, 2, 4]
        (fun c => if c = 9 then [13] else [c + 10]) 4 = [] ∧
      clearRootIslandSelections [(2, 1)] 5 false [1, 2, 4]
        (fun c => if c = 9 then [13] else [c + 10]) 2 = [12] ∧
      clearRootIslandSelections [(2, 1)] 5 false [1, 2, 4]
        (fun c => if c = 9 then [13] else [c + 10]) 9 = [13]) := by
  have hfuel : ∀ c ∈ [1, 2, 4], c < 5 := by decide
  have hs : Scene.Decreasing [(2, 1)] := by decide
  have h := pointerMissed_clears_exactly_root_islands hs hfuel
    (fun c => if c = 9 then [13] else [c + 10])
  refine ⟨⟨hfuel, hs⟩, ?_, ?_, ?_, ?_⟩
  · exact (h.1 1 (by decide)).1 (by decide)
  · exact (h.1 4 (by decide)).1 (by decide)
  · exact (h.1 2 (by decide)).2 ⟨1, by decide, by decide⟩
  · exact h.2 9 (by decide)

/-! ### C3: bubbling dispatch stops at a cancelling ancestor -/

/-- One node's listener invocations.  THREE's `dispatchEvent` calls every
registered listener of the event type in order (over a copy of the listener
array), so all of a node's listeners run even when one sets the cancellation
flag.  A listener is modelled by whether it sets the event's `cancelBubble`
flag, and an invocation is recorded as (node, listener position). -/
def invokeListeners (listeners : Nat → List Bool) (o : Nat) : List (Nat × Nat) :=
  (List.range (listeners o).length).map (fun i => (o, i))

/-- The bubbling loop of `dispatchEventBubbled`: while there is a target node
and the event's `cancelBubble` flag is unset, invoke the node's listeners,
stop if the flag is now set, otherwise continue at the parent.  After a node
is dispatched the flag is set exactly when one of its listeners set it. -/
def bubbleWalk (s : Scene) (listeners : Nat → List Bool) :
    Nat → Nat → Bool → List (Nat × Nat)
  | 0, _, _ => []
  | fuel + 1, object, cancelBubble =>
    if cancelBubble then []
    else if (listeners object).any id then invokeListeners listeners object
    else
      match parentOf s object with
      | some p =>
        invokeListeners listeners object ++
          bubbleWalk s listeners fuel p ((listeners object).any id)
      | none => invokeListeners listeners object

theorem bubbleWalk_succ (s : Scene) (listeners : Nat → List Bool) (fuel : Nat)
    (object : Nat) (cancelBubble : Bool) :
    bubbleWalk s listeners (fuel + 1) object cancelBubble =
      if cancelBubble then []
      else if (listeners object).any id then invokeListeners listeners object
      else
        match parentOf s object with
        | some p =>
          invokeListeners listeners object ++
            bubbleWalk s listeners fuel p ((listeners object).any id)
        | none => invokeListeners listeners object := rfl

/-- Embeds `dispatchEventBubbled` of `utils/interactive`: a bubbling event
walks the parent chain from the target; a non-bubbling event is dispatched to
the target object only. -/
def dispatchEventBubbled (s : Scene) (listeners : Nat → List Bool) (fuel : Nat)
    (object : Nat) (bubbles cancelBubble : Bool) : List (Nat × Nat) :=
  if bubbles then bubbleWalk s listeners fuel object cancelBubble
  else invokeListeners listeners object

/-- The parent chain from an object to its scene-graph root, target first. -/
def ancestorChain (s : Scene) : Nat → Nat → List Nat
  | 0, _ => []
  | fuel + 1, o =>
    o ::
      (match parentOf s o with
      | some p => ancestorChain s fuel p
      | none => [])

theorem ancestorChain_succ (s : Scene) (fuel : Nat) (o : Nat) :
    ancestorChain s (fuel + 1) o =
      o ::
        (match parentOf s o with
        | some p => ancestorChain s fuel p
        | none => []) := rfl

theorem ancestorChain_fuel {s : Scene} (hs : s.Decreasing) :
    ∀ {o fuel fuel' : Nat}, o < fuel → o < fuel' →
      ancestorChain s fuel o = ancestorChain s fuel' o := by
  intro o
  induction o using Nat.strong_induction_on with
  | _ o ih =>
    intro fuel fuel' hf hf'
    obtain ⟨f, rfl⟩ : ∃ f, fuel = f + 1 := ⟨fuel - 1, by omega⟩
    obtain ⟨f', rfl⟩ : ∃ f', fuel' = f' + 1 := ⟨fuel' - 1, by omega⟩
    rw [ancestorChain_succ, ancestorChain_succ]
    rcases hp : parentOf s o with _ | p
    · rfl
    · have hlt := parentOf_lt hs hp
      have h := ih p hlt (show p < f by omega) (show p < f' by omega)
      show o :: ancestorChain s f p = o :: ancestorChain s f' p
      rw [h]

theorem bubbleWalk_cancel_at {s : Scene} (hs : s.Decreasing)
    (listeners : Nat → List Bool) :
    ∀ (pre : List Nat) {o fuel : Nat}, o < fuel →
      ∀ {canceller : Nat} {post : List Nat},
      ancestorChain s (o + 1) o = pre ++ canceller :: post →
      (∀ n ∈ pre, (listeners n).any id = false) →
      (listeners canceller).any id = true →
      bubbleWalk s listeners fuel o false =
        (pre ++ [canceller]).flatMap (invokeListeners listeners) := by
  intro pre
  induction pre with
  | nil =>
    intro o fuel hf canceller post hchain hpre hcanc
    obtain ⟨f, rfl⟩ : ∃ f, fuel = f + 1 := ⟨fuel - 1, by omega⟩
    rw [ancestorChain_succ] at hchain
    rw [List.nil_append] at hchain
    injection hchain with h1 _
    subst h1
    rw [bubbleWalk_succ, if_neg Bool.false_ne_true, if_pos hcanc]
    simp [invokeListeners]
  | cons n pre' ih =>
    intro o fuel hf canceller post hchain hpre hcanc
    obtain ⟨f, rfl⟩ : ∃ f, fuel = f + 1 := ⟨fuel - 1, by omega⟩
    rw [ancestorChain_succ] at hchain
    rw [List.cons_append] at hchain
    injection hchain with h1 h2
    subst h1
    rcases hp : parentOf s o with _ | p
    · rw [hp] at h2
      cases pre' <;> simp at h2
    · rw [hp] at h2
      have hplt := parentOf_lt hs hp
      have h2' : ancestorChain s o p = pre' ++ canceller :: post := h2
      rw [ancestorChain_fuel hs (show p < o by omega) (Nat.lt_succ_self p)] at h2'
      have hno : (listeners o).any id = false := hpre o (by simp)
      rw [bubbleWalk_succ, if_neg Bool.false_ne_true, hno,
        if_neg Bool.false_ne_true, hp]
      show invokeListeners listeners o ++ bubbleWalk s listeners f p false =
        (o :: pre' ++ [canceller]).flatMap (invokeListeners listeners)
      rw [ih (show p < f by omega) h2' (fun m hm => hpre m (by simp [hm])) hcanc]
      rw [List.cons_append, List.flatMap_cons]

/-- C3: for a bubbling dispatch along an acyclic parent chain
`pre ++ canceller :: post` (target first), if no listener on the nodes of
`pre` cancels and some listener of `canceller` — a proper ancestor, as
`pre ≠ []` keeps the target inside `pre` — sets the cancellation flag, then
exactly the listeners of the target, of the ancestors strictly between target
and canceller, and of the canceller itself are invoked, in chain order, and no
listener of any higher ancestor (the nodes of `post`) is invoked. -/
theorem dispatchEventBubbled_stops_at_cancelling_ancestor {s : Scene}
    (hs : s.Decreasing) (listeners : Nat → List Bool) {t fuel : Nat}
    (hf : t < fuel) {pre : List Nat} {canceller : Nat} {post : List Nat}
    (hchain : ancestorChain s (t + 1) t = pre ++ canceller :: post)
    (htarget : pre ≠ [])
    (hpre : ∀ n ∈ pre, (listeners n).any id = false)
    (hcanc : (listeners canceller).any id = true) :
    dispatchEventBubbled s listeners fuel t true false =
      (pre ++ [canceller]).flatMap (invokeListeners listeners) := by
  unfold dispatchEventBubbled
  rw [if_pos rfl]
  exact bubbleWalk_cancel_at hs listeners pre hf hchain hpre hcanc

/-- Listener table for the C3 witness: two listeners on the target `3`, one on
the intermediate ancestor `2`, a cancelling listener (plus one more) on the
higher ancestor `1`, and one listener on the root `0`. -/
def bubbleListenersExample : Nat → List Bool := fun n =>
  if n = 3 then [false, false]
  else if n = 2 then [false]
  else if n = 1 then [true, false]
  else if n = 0 then [false]
  else []

/-- Witness for C3 at a concrete input: chain `3 → 2 → 1 → 0`, cancelling
listener at node `1`; nodes `3`, `2` and `1` receive all their listeners,
node `0` receives none. -/
theorem dispatchEventBubbled_stops_at_cancelling_ancestor_witness :
    (Scene.Decreasing [(3, 2), (2, 1), (1, 0)] ∧
      ancestorChain [(3, 2), (2, 1), (1, 0)] 4 3 = [3, 2] ++ 1 :: [0] ∧
      ([3, 2] : List Nat) ≠ [] ∧
      (∀ n ∈ [3, 2], (bubbleListenersExample n).any id = false) ∧
      (bubbleListenersExample 1).any id = true) ∧
    dispatchEventBubbled [(3, 2), (2, 1), (1, 0)] bubbleListenersExample 9 3
        true false =
      ([3, 2] ++ [1]).flatMap (invokeListeners bubbleListenersExample) :=
  ⟨⟨by decide, by decide, by decide, by decide, by decide⟩,
    @dispatchEventBubbled_stops_at_cancelling_ancestor
      [(3, 2), (2, 1), (1, 0)] (by decide) bubbleListenersExample 3 9
      (by decide) [3, 2] 1 [0] (by decide) (by decide) (by decide) (by decide)⟩

/-! ### Selection scopes and the `useContainerSelectable` click handler -/

/-- Selection-combination policy (`SelectionMode` of `tools/select`). -/
inductive SelectionMode
  | replace
  | toggle
  | add
  | remove
deriving DecidableEq

/-- One registered selectable scope (`SelectableInfo` of `tools/select`):
parent pointer (an index into the scope list; scopes mount parents first, so a
parent has a smaller index), the isolation flag, and the scope's own selection
list of scene objects. -/
structure SelectableInfo where
  parent : Option Nat
  isolateSelections : Bool
  selection : List Nat
deriving DecidableEq

/-- The selection list of the scope at `i` (empty for an invalid index). -/
def selectionAt (scopes : List SelectableInfo) (i : Nat) : List Nat :=
  ((scopes[i]?).map (·.selection)).getD []

/-- Replace the selection list of the scope at `i`. -/
def setSelection : List SelectableInfo → Nat → List Nat → List SelectableInfo
  | [], _, _ => []
  | sc :: rest, 0, sel => { sc with selection := sel } :: rest
  | sc :: rest, i + 1, sel => sc :: setSelection rest i sel

/-- Embeds `globalSelectable` of `tools/select`: walk `parent` links until a
scope with `isolateSelections` or without a parent is reached. -/
def globalSelectable (scopes : List SelectableInfo) (fuel : Nat) (i : Nat) : Nat :=
  match fuel with
  | 0 => i
  | fuel + 1 =>
    match scopes[i]? with
    | none => i
    | some sc =>
      if sc.isolateSelections then i
      else
        match sc.parent with
        | some p => globalSelectable scopes fuel p
        | none => i

theorem globalSelectable_succ (scopes : List SelectableInfo) (fuel : Nat)
    (i : Nat) :
    globalSelectable scopes (fuel + 1) i =
      match scopes[i]? with
      | none => i
      | some sc =>
        if sc.isolateSelections then i
        else
          match sc.parent with
          | some p => globalSelectable scopes fuel p
          | none => i := rfl

/-- JavaScript `Array.prototype.indexOf`: first index, `-1` when absent. -/
def jsIndexOf (l : List Nat) (o : Nat) : Int :=
  if o ∈ l then (l.indexOf o : Int) else -1

/-- The `replace`-mode removal loop of the click handler: scan the global
list, removing the entry at the cursor unless the cursor equals the
pre-computed (and never recomputed) local index, in which case the cursor
advances.  `fuel` bounds the iteration count; each iteration removes an
element or advances the cursor, so `2 * length + 1` iterations always finish
the loop. -/
def replaceLoop (fuel : Nat) (g : List Nat) (index_local : Int) (i : Nat) :
    List Nat :=
  match fuel with
  | 0 => g
  | fuel + 1 =>
    if i < g.length then
      if (i : Int) = index_local then replaceLoop fuel g index_local (i + 1)
      else replaceLoop fuel (g.eraseIdx i) index_local i
    else g

/-- Embeds the `onClick` handler of `useContainerSelectable` for a click on
object `o` handled by the scope at `scopeIdx`.  `selection_global` is the list
of the scope's `globalSelectable`; mutations are threaded sequentially through
the scope-list state, which preserves the aliasing of the local and global
lists when the scope is its own global scope. -/
def selectClick (scopes : List SelectableInfo) (fuel : Nat) (disabled : Bool)
    (mode : SelectionMode) (scopeIdx : Nat) (o : Nat) : List SelectableInfo :=
  if disabled then scopes
  else
    let gIdx := globalSelectable scopes fuel scopeIdx
    let index_global := jsIndexOf (selectionAt scopes gIdx) o
    let index_local := jsIndexOf (selectionAt scopes scopeIdx) o
    let includes_global := index_global ≠ -1
    let includes_local := index_local ≠ -1
    match mode with
    | SelectionMode.replace =>
      let scopes1 := setSelection scopes gIdx
        (replaceLoop (2 * (selectionAt scopes gIdx).length + 1)
          (selectionAt scopes gIdx) index_local 0)
      if includes_local then scopes1
      else setSelection scopes1 scopeIdx (selectionAt scopes1 scopeIdx ++ [o])
    | SelectionMode.toggle =>
      if includes_global then
        setSelection scopes gIdx
          ((selectionAt scopes gIdx).eraseIdx index_global.toNat)
      else
        setSelection scopes scopeIdx (selectionAt scopes scopeIdx ++ [o])
    | SelectionMode.add =>
      if includes_local then scopes
      else setSelection scopes gIdx (selectionAt scopes gIdx ++ [o])
    | SelectionMode.remove =>
      if includes_global then
        setSelection scopes gIdx
          ((selectionAt scopes gIdx).eraseIdx index_global.toNat)
      else scopes

theorem setSelection_getElem? (scopes : List SelectableInfo) (j : Nat)
    (sel : List Nat) (i : Nat) :
    (setSelection scopes j sel)[i]? =
      if i = j then (scopes[i]?).map (fun sc => { sc with selection := sel })
      else scopes[i]? := by
  induction scopes generalizing i j with
  | nil => simp [setSelection]
  | cons sc rest ih =>
    cases j with
    | zero =>
      cases i with
      | zero => simp [setSelection]
      | succ i => simp [setSelection]
    | succ j =>
      cases i with
      | zero => simp [setSelection]
      | succ i => simpa [setSelection] using ih j i

theorem setSelection_length (scopes : List SelectableInfo) (j : Nat)
    (sel : List Nat) : (setSelection scopes j sel).length = scopes.length := by
  induction scopes generalizing j with
  | nil => rfl
  | cons sc rest ih =>
    cases j with
    | zero => simp [setSelection]
    | succ j => simp [setSelection, ih]

theorem selectionAt_setSelection_same {scopes : List SelectableInfo} {j : Nat}
    (hj : j < scopes.length) (sel : List Nat) :
    selectionAt (setSelection scopes j sel) j = sel := by
  unfold selectionAt
  rw [setSelection_getElem?, if_pos rfl, List.getElem?_eq_getElem hj]
  rfl

theorem selectionAt_setSelection_other {scopes : List SelectableInfo}
    {i j : Nat} (hij : i ≠ j) (sel : List Nat) :
    selectionAt (setSelection scopes j sel) i = selectionAt scopes i := by
  unfold selectionAt
  rw [setSelection_getElem?, if_neg hij]

theorem globalSelectable_setSelection (scopes : List SelectableInfo) (j : Nat)
    (sel : List Nat) :
    ∀ (fuel i : Nat), globalSelectable (setSelection scopes j sel) fuel i =
      globalSelectable scopes fuel i := by
  intro fuel
  induction fuel with
  | zero => intro i; rfl
  | succ fuel ih =>
    intro i
    rw [globalSelectable_succ, globalSelectable_succ, setSelection_getElem?]
    by_cases hij : i = j
    · rw [if_pos hij]
      rcases h : scopes[i]? with _ | sc
      · rfl
      · show (if sc.isolateSelections then i
          else
            match sc.parent with
            | some p => globalSelectable (setSelection scopes j sel) fuel p
            | none => i) = _
        by_cases hiso : sc.isolateSelections
        · simp [hiso]
        · simp only [hiso, if_false]
          rcases sc.parent with _ | p
          · rfl
          · exact ih p
    · rw [if_neg hij]
      rcases h : scopes[i]? with _ | sc
      · rfl
      · by_cases hiso : sc.isolateSelections
        · simp [hiso]
        · simp only [hiso, if_false]
          rcases sc.parent with _ | p
          · rfl
          · exact ih p

theorem jsIndexOf_ne_neg_one_iff (l : List Nat) (o : Nat) :
    (jsIndexOf l o ≠ -1) ↔ o ∈ l := by
  unfold jsIndexOf
  by_cases h : o ∈ l
  · rw [if_pos h]
    constructor
    · intro _
      exact h
    · intro _ hc
      omega
  · rw [if_neg h]
    constructor
    · intro hc
      exact absurd rfl hc
    · intro hmem
      exact absurd hmem h

theorem jsIndexOf_toNat (l : List Nat) (o : Nat) (h : o ∈ l) :
    (jsIndexOf l o).toNat = l.indexOf o := by
  unfold jsIndexOf
  rw [if_pos h]
  exact Int.toNat_ofNat _

theorem eraseIdx_indexOf_eq_erase (l : List Nat) (o : Nat) :
    l.eraseIdx (l.indexOf o) = l.erase o := by
  induction l with
  | nil => rfl
  | cons x xs ih =>
    by_cases h : x = o
    · subst h
      simp [List.indexOf_cons_self, List.erase_cons_head]
    · rw [List.indexOf_cons_ne _ (by simpa using h), List.erase_cons_tail,
        List.eraseIdx_cons_succ, ih]
      simp [h]

theorem selectClick_toggle_eq (scopes : List SelectableInfo) (fuel : Nat)
    (i o : Nat) :
    selectClick scopes fuel false SelectionMode.toggle i o =
      if jsIndexOf (selectionAt scopes (globalSelectable scopes fuel i)) o ≠ -1 then
        setSelection scopes (globalSelectable scopes fuel i)
          ((selectionAt scopes (globalSelectable scopes fuel i)).eraseIdx
            (jsIndexOf (selectionAt scopes (globalSelectable scopes fuel i)) o).toNat)
      else setSelection scopes i (selectionAt scopes i ++ [o]) := rfl

/-- C6 (amended): in a scope that resolves to itself as its global scope and
whose global selection list holds the clicked object at most once, two
`toggle`-mode clicks on the same object restore the global list's membership
of that object (first click removes / second re-adds, or first adds / second
removes). -/
theorem selectClick_toggle_twice_restores_membership
    {scopes : List SelectableInfo} {fuel i o : Nat}
    (hi : i < scopes.length)
    (hg : globalSelectable scopes fuel i = i)
    (hcount : (selectionAt scopes i).count o ≤ 1) :
    (o ∈ selectionAt
        (selectClick (selectClick scopes fuel false SelectionMode.toggle i o)
          fuel false SelectionMode.toggle i o)
        (globalSelectable
          (selectClick (selectClick scopes fuel false SelectionMode.toggle i o)
            fuel false SelectionMode.toggle i o) fuel i) ↔
      o ∈ selectionAt scopes (globalSelectable scopes fuel i)) := by
  by_cases hmem : o ∈ selectionAt scopes i
  · have h1 : selectClick scopes fuel false SelectionMode.toggle i o =
        setSelection scopes i ((selectionAt scopes i).erase o) := by
      rw [selectClick_toggle_eq, hg,
        if_pos ((jsIndexOf_ne_neg_one_iff _ o).mpr hmem),
        jsIndexOf_toNat _ o hmem, eraseIdx_indexOf_eq_erase]
    have hg1 : globalSelectable
        (selectClick scopes fuel false SelectionMode.toggle i o) fuel i = i := by
      rw [h1, globalSelectable_setSelection, hg]
    have hsel1 : selectionAt
        (selectClick scopes fuel false SelectionMode.toggle i o) i =
        (selectionAt scopes i).erase o := by
      rw [h1, selectionAt_setSelection_same hi]
    have hnot1 : o ∉ selectionAt
        (selectClick scopes fuel false SelectionMode.toggle i o) i := by
      rw [hsel1]
      have hcz : ((selectionAt scopes i).erase o).count o = 0 := by
        rw [List.count_erase_self]
        have hone : 1 ≤ (selectionAt scopes i).count o :=
          List.count_pos_iff.mpr hmem
        omega
      exact List.count_eq_zero.mp hcz
    have h2 : selectClick (selectClick scopes fuel false SelectionMode.toggle i o)
        fuel false SelectionMode.toggle i o =
        setSelection (selectClick scopes fuel false SelectionMode.toggle i o) i
          (selectionAt (selectClick scopes fuel false SelectionMode.toggle i o) i
            ++ [o]) := by
      rw [selectClick_toggle_eq, hg1,
        if_neg (by
          intro hcontra
          exact hnot1 ((jsIndexOf_ne_neg_one_iff _ o).mp hcontra))]
    have hlen1 : i < (selectClick scopes fuel false SelectionMode.toggle i o).length := by
      rw [h1, setSelection_length]
      exact hi
    rw [h2, globalSelectable_setSelection, hg1,
      selectionAt_setSelection_same hlen1, hg]
    simp [hmem]
  · have h1 : selectClick scopes fuel false SelectionMode.toggle i o =
        setSelection scopes i (selectionAt scopes i ++ [o]) := by
      rw [selectClick_toggle_eq, hg,
        if_neg (by
          intro hcontra
          exact hmem ((jsIndexOf_ne_neg_one_iff _ o).mp hcontra))]
    have hg1 : globalSelectable
        (selectClick scopes fuel false SelectionMode.toggle i o) fuel i = i := by
      rw [h1, globalSelectable_setSelection, hg]
    have hsel1 : selectionAt
        (selectClick scopes fuel false SelectionMode.toggle i o) i =
        selectionAt scopes i ++ [o] := by
      rw [h1, selectionAt_setSelection_same hi]
    have hmem1 : o ∈ selectionAt
        (selectClick scopes fuel false SelectionMode.toggle i o) i := by
      rw [hsel1]
      simp
    have hcount1 : (selectionAt
        (selectClick scopes fuel false SelectionMode.toggle i o) i).count o = 1 := by
      rw [hsel1, List.count_append]
      have := List.count_eq_zero.mpr hmem
      simp [this]
    have h2 : selectClick (selectClick scopes fuel false SelectionMode.toggle i o)
        fuel false SelectionMode.toggle i o =
        setSelection (selectClick scopes fuel false SelectionMode.toggle i o) i
          ((selectionAt (selectClick scopes fuel false SelectionMode.toggle i o) i).erase o) := by
      rw [selectClick_toggle_eq, hg1,
        if_pos ((jsIndexOf_ne_neg_one_iff _ o).mpr hmem1),
        jsIndexOf_toNat _ o hmem1, eraseIdx_indexOf_eq_erase]
    have hlen1 : i < (selectClick scopes fuel false SelectionMode.toggle i o).length := by
      rw [h1, setSelection_length]
      exact hi
    have hnot2 : o ∉ (selectionAt
        (selectClick scopes fuel false SelectionMode.toggle i o) i).erase o := by
      refine List.count_eq_zero.mp ?_
      rw [List.count_erase_self, hcount1]
    rw [h2, globalSelectable_setSelection, hg1,
      selectionAt_setSelection_same hlen1, hg]
    simp [hmem, hnot2]

/-- Witness for the amended C6 at a concrete input: a single root scope
containing `[8, 9]`, toggled twice on `9`. -/
theorem selectClick_toggle_twice_restores_membership_witness :
    ((0 : Nat) < ([⟨none, false, [8, 9]⟩] : List SelectableInfo).length ∧
      globalSelectable [⟨none, false, [8, 9]⟩] 1 0 = 0 ∧
      (selectionAt [⟨none, false, [8, 9]⟩] 0).count 9 ≤ 1) ∧
    (9 ∈ selectionAt
        (selectClick (selectClick [⟨none, false, [8, 9]⟩] 1 false
            SelectionMode.toggle 0 9) 1 false SelectionMode.toggle 0 9)
        (globalSelectable
          (selectClick (selectClick [⟨none, false, [8, 9]⟩] 1 false
              SelectionMode.toggle 0 9) 1 false SelectionMode.toggle 0 9) 1 0) ↔
      9 ∈ selectionAt [⟨none, false, [8, 9]⟩]
        (globalSelectable [⟨none, false, [8, 9]⟩] 1 0)) :=
  ⟨⟨by decide, by decide, by decide⟩,
    selectClick_toggle_twice_restores_membership (by decide) (by decide)
      (by decide)⟩

/-- Counterexample to C6 as stated: in a nested non-isolated scope (scope `1`,
child of the isolated root scope `0`) with object `5` globally selected, the
first toggle removes `5` from the global list but the second toggle pushes it
only into the nested scope's local list, so the global membership is not
restored. -/
theorem selectClick_toggle_twice_counterexample :
    (5 ∈ selectionAt [⟨none, true, [5]⟩, ⟨some 0, false, [5]⟩]
        (globalSelectable [⟨none, true, [5]⟩, ⟨some 0, false, [5]⟩] 2 1)) ∧
    (5 ∉ selectionAt
        (selectClick (selectClick [⟨none, true, [5]⟩, ⟨some 0, false, [5]⟩]
            2 false SelectionMode.toggle 1 5) 2 false SelectionMode.toggle 1 5)
        (globalSelectable
          (selectClick (selectClick [⟨none, true, [5]⟩, ⟨some 0, false, [5]⟩]
              2 false SelectionMode.toggle 1 5) 2 false SelectionMode.toggle 1 5)
          2 1)) := by decide

/-- C4: evaluating the `replace`-mode click handler at the failing input — a
single root scope (its own global scope) with selection `[4, 7]` and a click
on the already-selected object `7` at local index `1` — empties the selection
instead of leaving exactly `[7]`: the removal loop compares shifting global
positions against the stale local index and so removes every entry, and the
push is skipped because the object was locally present. -/
theorem selectClick_replace_on_selected_clears_selection :
    selectClick [⟨none, false, [4, 7]⟩] 1 false SelectionMode.replace 0 7 =
      [⟨none, false, []⟩] ∧
    selectionAt (selectClick [⟨none, false, [4, 7]⟩] 1 false
        SelectionMode.replace 0 7) 0 ≠ [7] := by decide

/-! ### C9: `useMembership` insert-position memory -/

/-- The remembered insert position of `useMembership` (`insertAfter` ref):
initially unassigned, later either the module-level `start` symbol (front of
the list) or the element just before the last insertion point.  Members are
scene objects or scope records, which are always truthy, so the source's
`if (insertAfter.current)` test distinguishes exactly the unassigned state. -/
inductive InsertAfter (T : Type)
  | undef
  | start
  | elem (t : T)
deriving DecidableEq

/-- The list together with the insert-position memory of one `useMembership`
hook instance. -/
structure MembershipState (T : Type) where
  list : List T
  insertAfter : InsertAfter T
deriving DecidableEq

/-- The effect body of `useMembership`: the insertion index defaults to the
end of the list, is `0` when the memory says `start`, and is one past the
remembered predecessor when that predecessor is still present; the memory is
then updated to the element just before the insertion point (`start` at the
front) and the members are spliced in at the insertion index. -/
def useMembershipInsert {T : Type} [DecidableEq T] (s : MembershipState T)
    (members : List T) : MembershipState T :=
  let insertIndex :=
    match s.insertAfter with
    | InsertAfter.undef => s.list.length
    | InsertAfter.start => 0
    | InsertAfter.elem t =>
      if t ∈ s.list then s.list.indexOf t + 1 else s.list.length
  let insertAfter :=
    if insertIndex = 0 then InsertAfter.start
    else
      match s.list[insertIndex - 1]? with
      | some t => InsertAfter.elem t
      | none => InsertAfter.undef
  { list := s.list.take insertIndex ++ members ++ s.list.drop insertIndex,
    insertAfter := insertAfter }

/-- The effect cleanup of `useMembership`: remove each member's first
occurrence from the list (a no-op for members no longer present). -/
def useMembershipRemove {T : Type} [DecidableEq T] (s : MembershipState T)
    (members : List T) : MembershipState T :=
  { s with
    list := members.foldl
      (fun l m => if m ∈ l then l.eraseIdx (l.indexOf m) else l) s.list }

/-- C9: the first `useMembership` run appends the member at the end and
records the list's last element (or `start` on an empty list) as its
predecessor; after the member is removed and the list evolves to any state
`l'`, re-running the effect re-inserts the member immediately after that
predecessor's first occurrence if it is still present, at the front if the
member had been inserted at the front, and at the end of the list if the
predecessor is gone. -/
theorem useMembership_reinsert_after_predecessor {T : Type} [DecidableEq T]
    (l l' : List T) (m : T) :
    ((useMembershipInsert ⟨l, InsertAfter.undef⟩ [m]).list = l ++ [m]) ∧
    (l = [] →
      (useMembershipInsert ⟨l, InsertAfter.undef⟩ [m]).insertAfter =
        InsertAfter.start ∧
      (useMembershipInsert
        ⟨l', (useMembershipInsert ⟨l, InsertAfter.undef⟩ [m]).insertAfter⟩
        [m]).list = m :: l') ∧
    (∀ p, l.getLast? = some p →
      (useMembershipInsert ⟨l, InsertAfter.undef⟩ [m]).insertAfter =
        InsertAfter.elem p ∧
      (p ∈ l' →
        (useMembershipInsert
          ⟨l', (useMembershipInsert ⟨l, InsertAfter.undef⟩ [m]).insertAfter⟩
          [m]).list =
          l'.take (l'.indexOf p + 1) ++ [m] ++ l'.drop (l'.indexOf p + 1)) ∧
      (p ∉ l' →
        (useMembershipInsert
          ⟨l', (useMembershipInsert ⟨l, InsertAfter.undef⟩ [m]).insertAfter⟩
          [m]).list = l' ++ [m])) := by
  refine ⟨?_, ?_, ?_⟩
  · simp [useMembershipInsert]
  · intro hl
    subst hl
    constructor
    · rfl
    · simp [useMembershipInsert]
  · intro p hp
    have hne : l ≠ [] := by
      intro hl
      rw [hl] at hp
      exact Option.noConfusion hp
    have hlen : l.length ≠ 0 := fun h => hne (List.length_eq_zero.mp h)
    have hfirst : (useMembershipInsert ⟨l, InsertAfter.undef⟩ [m]).insertAfter =
        InsertAfter.elem p := by
      unfold useMembershipInsert
      simp only [if_neg hlen]
      rw [← List.getLast?_eq_getElem?] at *
      rw [hp]
    refine ⟨hfirst, ?_, ?_⟩
    · intro hpmem
      rw [hfirst]
      unfold useMembershipInsert
      simp only [if_pos hpmem]
    · intro hpnot
      rw [hfirst]
      unfold useMembershipInsert
      simp only [if_neg hpnot]
      simp

/-- Witness for C9 at concrete inputs: member `9` first appended to `[1, 2]`
(predecessor `2` recorded); re-added into `[1, 7, 2, 8]` it lands right after
`2`; re-added into `[1, 7, 8]` (predecessor gone) it lands at the end; a
member first inserted into the empty list re-enters at the front. -/
theorem useMembership_reinsert_after_predecessor_witness :
    ((useMembershipInsert ⟨[1, 2], InsertAfter.undef⟩ [9]).list = [1, 2, 9]) ∧
    (([1, 2] : List Nat).getLast? = some 2 ∧
      (useMembershipInsert
        ⟨[1, 7, 2, 8],
          (useMembershipInsert ⟨[1, 2], InsertAfter.undef⟩ [9]).insertAfter⟩
        [9]).list = [1, 7, 2, 9, 8]) ∧
    ((2 : Nat) ∉ ([1, 7, 8] : List Nat) ∧
      (useMembershipInsert
        ⟨[1, 7, 8],
          (useMembershipInsert ⟨[1, 2], InsertAfter.undef⟩ [9]).insertAfter⟩
        [9]).list = [1, 7, 8, 9]) ∧
    (useMembershipInsert
        ⟨[4, 5],
          (useMembershipInsert ⟨([] : List Nat), InsertAfter.undef⟩ [9]).insertAfter⟩
        [9]).list = [9, 4, 5] := by
  have h1 := useMembership_reinsert_after_predecessor [1, 2] [1, 7, 2, 8] 9
  have h2 := useMembership_reinsert_after_predecessor [1, 2] [1, 7, 8] 9
  have h3 := useMembership_reinsert_after_predecessor ([] : List Nat) [4, 5] 9
  refine ⟨h1.1, ⟨by decide, ?_⟩, ⟨by decide, ?_⟩, ?_⟩
  · have := ((h1.2.2 2 (by decide)).2.1 (by decide))
    simpa using this
  · exact (h2.2.2 2 (by decide)).2.2 (by decide)
  · exact (h3.2.1 rfl).2

/-! ### C8: geometry-edit vertex proxy degenerate index maps -/

/-- Embeds the vertex proxy `GeometryEditVertex` of the geometry-edit tool:
resolve the display indices of the base (edit-mesh) vertex through the
externally supplied base-to-display map; zero display indices renders nothing
(the vertex was eliminated by a display-generating transform), two or more
raise the invariant-violation error, and exactly one yields an instance
positioned at that display vertex's coordinate. -/
def geometryEditVertex {V : Type} (fromBase : Nat → List Nat)
    (vertex : Nat → V) (index : Nat) : Except String (Option (Nat × V)) :=
  let indices_display := fromBase index
  if indices_display.length = 0 then Except.ok none
  else if indices_display.length > 1 then Except.error "expected single index"
  else
    Except.ok (some (indices_display.headI, vertex indices_display.headI))

/-- C8: a base vertex with zero display indices renders nothing and does not
raise, and a base vertex with two or more display indices raises the
"expected single index" invariant-violation error. -/
theorem geometryEditVertex_degenerate {V : Type} (fromBase : Nat → List Nat)
    (vertex : Nat → V) (index : Nat) :
    (fromBase index = [] →
      geometryEditVertex fromBase vertex index = Except.ok none) ∧
    (2 ≤ (fromBase index).length →
      geometryEditVertex fromBase vertex index =
        Except.error "expected single index") := by
  constructor
  · intro h
    simp [geometryEditVertex, h]
  · intro h
    unfold geometryEditVertex
    rw [if_neg (by omega), if_pos (by omega)]

/-- Witness for C8 at a concrete map: base vertex `0` has no display index
(renders nothing), base vertex `1` has two (raises). -/
theorem geometryEditVertex_degenerate_witness :
    ((fun i => if i = 0 then ([] : List Nat) else [3, 4]) 0 = [] ∧
      geometryEditVertex (fun i => if i = 0 then [] else [3, 4])
        (fun i => i) 0 = Except.ok none) ∧
    (2 ≤ ((fun i => if i = 0 then ([] : List Nat) else [3, 4]) 1).length ∧
      geometryEditVertex (fun i => if i = 0 then [] else [3, 4])
        (fun i => i) 1 = Except.error "expected single index") :=
  ⟨⟨rfl, (geometryEditVertex_degenerate _ _ 0).1 rfl⟩,
    ⟨by decide, (geometryEditVertex_degenerate _ _ 1).2 (by decide)⟩⟩

/-! ### Transform propagation (`ObjectTransformer` and the gizmo driver)

Matrices are modelled as elements of an arbitrary group `M` (three.js
`Matrix4` composition is associative and the session's matrices are
invertible); `a * b` is three.js `a.clone().multiply(b)`.  The
`decompose`/`compose` round trip of `setObjectTransform` is the identity on
such matrices, so it sets the object's local matrix to the given product.
The position-stripping `matrixWorld.setPosition(0)` of the global-space
conversion is not expressible on an abstract group and is carried as an
explicit environment function `stripPosition`; the claims below exercise the
local coordinate system, where the conversion is the identity. -/

/-- Coordinate system of a manipulation session (`TransformCoordinateSystem`;
the source's enum values `local`/`global` are Lean keywords, hence the
suffix). -/
inductive TransformCoordinateSystem
  | localSpace
  | globalSpace
deriving DecidableEq

/-- Mutable per-object state of the scene the transformer acts on:
each object's local matrix, plus the abstracted position-stripping operator
used by the global-space delta conversion. -/
structure TransformScene (M : Type) where
  matrixOf : Nat → M
  stripPosition : M → M

/-- three.js `matrixWorld`: the product of the local matrices along the
parent chain (parent's world matrix times own local matrix). -/
def worldMatrix {M : Type} [Group M] (s : Scene) (sc : TransformScene M) :
    Nat → Nat → M
  | 0, o => sc.matrixOf o
  | fuel + 1, o =>
    match parentOf s o with
    | some p => worldMatrix s sc fuel p * sc.matrixOf o
    | none => sc.matrixOf o

/-- Embeds `getCurrentTransform`: the local matrix in local space, the world
matrix in global space. -/
def getCurrentTransform {M : Type} [Group M] (s : Scene) (sc : TransformScene M)
    (fuel : Nat) (object : Nat) (coordinateSystem : TransformCoordinateSystem) : M :=
  match coordinateSystem with
  | TransformCoordinateSystem.localSpace => sc.matrixOf object
  | TransformCoordinateSystem.globalSpace => worldMatrix s sc fuel object

/-- Embeds `getDeltaTransform`: the delta unchanged in local space; in global
space the delta premultiplied by the inverse of the object's
position-stripped world matrix. -/
def getDeltaTransform {M : Type} [Group M] (s : Scene) (sc : TransformScene M)
    (fuel : Nat) (object : Nat) (coordinateSystem : TransformCoordinateSystem)
    (transform : M) : M :=
  match coordinateSystem with
  | TransformCoordinateSystem.localSpace => transform
  | TransformCoordinateSystem.globalSpace =>
    (sc.stripPosition (worldMatrix s sc fuel object))⁻¹ * transform

/-- Embeds `setObjectTransform`: decompose the matrix into the object's
position/quaternion/scale, i.e. set the object's local matrix. -/
def setObjectTransform {M : Type} (sc : TransformScene M) (object : Nat)
    (matrix : M) : TransformScene M :=
  { sc with matrixOf := fun o => if o = object then matrix else sc.matrixOf o }

/-- JavaScript `Map.set` on an association list keyed by object id. -/
def setAssoc {M : Type} : List (Nat × M) → Nat → M → List (Nat × M)
  | [], k, v => [(k, v)]
  | (k', v') :: rest, k, v =>
    if k' = k then (k, v) :: rest else (k', v') :: setAssoc rest k v

/-- JavaScript `Map.get` on an association list keyed by object id. -/
def getAssoc {M : Type} (m : List (Nat × M)) (k : Nat) : Option M :=
  (m.find? (fun p => p.1 == k)).map (·.2)

/-- The kinds of bubbling events the transformer dispatches. -/
inductive TransformEventKind
  | onTransformStart
  | onTransform
  | onTransformComplete
deriving DecidableEq

/-- A `dispatchEventBubbled` call issued by the transformer: event kind,
target object, and the accumulated-transform payload when the event carries
one. -/
structure TransformDispatch (M : Type) where
  kind : TransformEventKind
  target : Nat
  transform : Option M

/-- Embeds the `ObjectTransformer` session state of `tools/transform`: the
directly-transformed objects (a push-only array), the per-object
session-start snapshots, the session's coordinate system (set by `start`),
and the tracked object list. -/
structure ObjectTransformer (M : Type) where
  directlyTransformed : List Nat
  startTransforms : List (Nat × M)
  coordinateSystem : Option TransformCoordinateSystem
  transformed : List Nat

/-- Embeds `ObjectTransformer.#applyTransform`: every tracked object not in
the directly-transformed set has its local matrix overwritten with its
session-start snapshot times the (coordinate-converted) delta; a missing
snapshot raises, and the `coordinateSystem!` non-null assertion is modelled
as an error when the session never started. -/
def applyTransform {M : Type} [Group M] (s : Scene) (fuel : Nat)
    (tr : ObjectTransformer M) (sc : TransformScene M) (transform : M) :
    Except String (TransformScene M) :=
  tr.transformed.foldlM
    (fun sc' o =>
      if o ∈ tr.directlyTransformed then Except.ok sc'
      else
        match getAssoc tr.startTransforms o with
        | none =>
          Except.error "indirectly transformed object's start transform not found"
        | some onTransformStart =>
          match tr.coordinateSystem with
          | none => Except.error "coordinate system not set"
          | some cs =>
            Except.ok (setObjectTransform sc' o
              (onTransformStart * getDeltaTransform s sc' fuel o cs transform)))
    sc

/-- Embeds `ObjectTransformer.start`: push the directly transformed object,
record the coordinate system, and for every tracked object dispatch
`onTransformStart` and snapshot its current transform. -/
def ObjectTransformer.start {M : Type} [Group M] (s : Scene) (fuel : Nat)
    (tr : ObjectTransformer M) (sc : TransformScene M)
    (directlyTransformedObj : Nat)
    (coordinateSystem : TransformCoordinateSystem) :
    ObjectTransformer M × List (TransformDispatch M) :=
  let tr1 : ObjectTransformer M :=
    { tr with
      directlyTransformed := tr.directlyTransformed ++ [directlyTransformedObj],
      coordinateSystem := some coordinateSystem }
  let acc := tr1.transformed.foldl
    (fun (acc : List (TransformDispatch M) × List (Nat × M)) obj =>
      (acc.1 ++ [⟨TransformEventKind.onTransformStart, obj, none⟩],
        setAssoc acc.2 obj (getCurrentTransform s sc fuel obj coordinateSystem)))
    ([], tr1.startTransforms)
  ({ tr1 with startTransforms := acc.2 }, acc.1)

/-- Embeds `ObjectTransformer.transform`: apply the delta to the followers,
then dispatch `onTransform` (carrying the delta) to every tracked object.
The transformer record itself is unchanged. -/
def ObjectTransformer.transform {M : Type} [Group M] (s : Scene) (fuel : Nat)
    (tr : ObjectTransformer M) (sc : TransformScene M) (transform : M) :
    Except String (TransformScene M × List (TransformDispatch M)) :=
  match applyTransform s fuel tr sc transform with
  | Except.error e => Except.error e
  | Except.ok sc' =>
    Except.ok (sc', tr.transformed.map
      (fun obj => ⟨TransformEventKind.onTransform, obj, some transform⟩))

/-- Embeds `ObjectTransformer.complete`: the same propagation as `transform`,
then dispatch `onTransformComplete` (carrying the delta) to every tracked
object.  The method does not modify the transformer record: in particular
`directlyTransformed` is not cleared. -/
def ObjectTransformer.complete {M : Type} [Group M] (s : Scene) (fuel : Nat)
    (tr : ObjectTransformer M) (sc : TransformScene M) (transform : M) :
    Except String (TransformScene M × List (TransformDispatch M)) :=
  match applyTransform s fuel tr sc transform with
  | Except.error e => Except.error e
  | Except.ok sc' =>
    Except.ok (sc', tr.transformed.map
      (fun obj => ⟨TransformEventKind.onTransformComplete, obj, some transform⟩))

/-- The session state threaded through a drag by `TransformComponent`:
the scene, the transformer, the driver's `startTransform` ref (baseline of
the next frame delta), and the log of dispatched events. -/
structure DragState (M : Type) where
  sc : TransformScene M
  tr : ObjectTransformer M
  startRef : M
  events : List (TransformDispatch M)

/-- Embeds a full drag session driven by `TransformComponent`'s callbacks:
`onMouseDown` records the direct object's current transform and calls
`transformer.start`; for each gizmo movement (which first writes the direct
object's new matrix) `onChange` computes the frame delta
`end⁻¹ * startRef`, resets the baseline to `end`, and calls
`transformer.transform`; `onMouseUp` computes the delta since the last
change the same way and calls `transformer.complete`. -/
def runDragSession {M : Type} [Group M] (s : Scene) (fuel : Nat)
    (sc : TransformScene M) (transformed : List Nat) (direct : Nat)
    (coordinateSystem : TransformCoordinateSystem) (moves : List M) :
    Except String (DragState M) := do
  let tr0 : ObjectTransformer M := ⟨[], [], none, transformed⟩
  let startPair := ObjectTransformer.start s fuel tr0 sc direct coordinateSystem
  let st0 : DragState M :=
    ⟨sc, startPair.1, getCurrentTransform s sc fuel direct coordinateSystem,
      startPair.2⟩
  let stN ← moves.foldlM
    (fun (st : DragState M) e => do
      let sc1 := setObjectTransform st.sc direct e
      let endTransform := getCurrentTransform s sc1 fuel direct coordinateSystem
      let deltaTransform := endTransform⁻¹ * st.startRef
      let res ← ObjectTransformer.transform s fuel st.tr sc1 deltaTransform
      pure (⟨res.1, st.tr, endTransform, st.events ++ res.2⟩ : DragState M))
    st0
  let endTransform := getCurrentTransform s stN.sc fuel direct coordinateSystem
  let deltaTransform := endTransform⁻¹ * stN.startRef
  let res ← ObjectTransformer.complete s fuel stN.tr stN.sc deltaTransform
  pure ⟨res.1, stN.tr, endTransform, stN.events ++ res.2⟩

/-- C1: evaluating the full drag pipeline at the failing input.  One follower
(object `1`, snapshot the identity) tracks the direct object `0`; the user
makes one move to matrix `g = ofAdd 1` and releases.  The single incremental
`transform` delta of the session is `g⁻¹ * 1 = g⁻¹`, so the claim predicts
the follower ends at `snapshot * g⁻¹ = g⁻¹`; the code instead leaves the
follower at its snapshot `1`, because each `transform` overwrites the
follower from the snapshot with only the latest frame delta and `complete`
applies only the delta accrued after the last change (the identity here). -/
theorem runDragSession_follower_ends_at_snapshot_not_composed_delta :
    ((runDragSession ([] : Scene) 1
        (⟨fun _ => 1, id⟩ : TransformScene (Multiplicative ℤ)) [0, 1] 0
        TransformCoordinateSystem.localSpace
        [Multiplicative.ofAdd (1 : ℤ)]).toOption.map
          (fun st => st.sc.matrixOf 1)) = some 1 ∧
    (1 : Multiplicative ℤ) *
        ((Multiplicative.ofAdd (1 : ℤ))⁻¹ * (1 : Multiplicative ℤ)) ≠ 1 := by
  constructor
  · rfl
  · intro h
    have h2 := congrArg Multiplicative.toAdd h
    simp at h2

/-- C5: evaluating `ObjectTransformer` at the failing input.  With tracked
objects `[0, 1]`, after `start(0, local)` and `complete(identity)` the
propagation and the `onTransformComplete` dispatches succeed, but
`directlyTransformed` still holds `[0]` (the class never clears the
push-only array), so a subsequent `start(1, local)` begins with
`directlyTransformed = [0, 1]` instead of `[1]`.  The last conjunct checks
the claim's true part: `complete` leaves the objects' matrices exactly as
the same call to `transform` would (both route through `#applyTransform`). -/
theorem objectTransformer_complete_does_not_clear_directly_transformed :
    ((ObjectTransformer.start ([] : Scene) 1
        (⟨[], [], none, [0, 1]⟩ : ObjectTransformer (Multiplicative ℤ))
        ⟨fun _ => 1, id⟩ 0 TransformCoordinateSystem.localSpace).1.directlyTransformed
      = [0]) ∧
    ((ObjectTransformer.complete ([] : Scene) 1
        (ObjectTransformer.start ([] : Scene) 1
          (⟨[], [], none, [0, 1]⟩ : ObjectTransformer (Multiplicative ℤ))
          ⟨fun _ => 1, id⟩ 0 TransformCoordinateSystem.localSpace).1
        ⟨fun _ => 1, id⟩ 1).map (fun r => r.2.map (fun d => (d.kind, d.target)))
      = Except.ok [(TransformEventKind.onTransformComplete, 0),
          (TransformEventKind.onTransformComplete, 1)]) ∧
    ((ObjectTransformer.start ([] : Scene) 1
        (ObjectTransformer.start ([] : Scene) 1
          (⟨[], [], none, [0, 1]⟩ : ObjectTransformer (Multiplicative ℤ))
          ⟨fun _ => 1, id⟩ 0 TransformCoordinateSystem.localSpace).1
        ⟨fun _ => 1, id⟩ 1 TransformCoordinateSystem.localSpace).1.directlyTransformed
      = [0, 1]) ∧
    ((ObjectTransformer.complete ([] : Scene) 1
        (ObjectTransformer.start ([] : Scene) 1
          (⟨[], [], none, [0, 1]⟩ : ObjectTransformer (Multiplicative ℤ))
          ⟨fun _ => 1, id⟩ 0 TransformCoordinateSystem.localSpace).1
        ⟨fun _ => 1, id⟩ 1).map (fun r => (r.1.matrixOf 0, r.1.matrixOf 1)) =
      (ObjectTransformer.transform ([] : Scene) 1
        (ObjectTransformer.start ([] : Scene) 1
          (⟨[], [], none, [0, 1]⟩ : ObjectTransformer (Multiplicative ℤ))
          ⟨fun _ => 1, id⟩ 0 TransformCoordinateSystem.localSpace).1
        ⟨fun _ => 1, id⟩ 1).map (fun r => (r.1.matrixOf 0, r.1.matrixOf 1))) := by
  refine ⟨rfl, ?_, rfl, rfl⟩
  rfl
